import Mathlib

/-!
Verification development for the Tax GPT command-line assistant.

The repository's core (paragraph chunker, keyword-scored retriever, session
manager with JSON persistence, markdown line/table/stream formatter) is given
a shallow embedding here.  JavaScript strings are modelled as `List Char`
(named `Str`); JavaScript's regex-based replacements are modelled by
equivalent explicit scanners; the filesystem under the sessions directory is
modelled as an association list from filename to file content, where a file's
content is either a parsed JSON value (the file holds valid JSON text) or a
marker for text that is not valid JSON.
-/

/-- Characters of a Lean string literal, used to write concrete JS strings. -/
def chars (s : String) : List Char := s.data

/-- JavaScript strings, modelled as their character sequences. -/
abbrev Str := List Char

/-- JS `String.prototype.includes`: `sub` occurs contiguously inside `s`. -/
def includesSub (s sub : Str) : Bool :=
  s.tails.any (fun t => sub.isPrefixOf t)

/-- JS `String.prototype.toLowerCase` (per-character lowercasing). -/
def lowerStr (s : Str) : Str := s.map Char.toLower

/-- JS `String.prototype.trim`: strip leading and trailing whitespace. -/
def trimStr (s : Str) : Str :=
  ((s.dropWhile Char.isWhitespace).reverse.dropWhile Char.isWhitespace).reverse

/-- Splitting a string on a single delimiter character, JS
`String.prototype.split(d)`: always returns at least one (possibly empty)
piece, with empty pieces kept. -/
def splitOnCh (d : Char) : Str → List Str
  | [] => [[]]
  | c :: rest =>
    if c = d then [] :: splitOnCh d rest
    else
      match splitOnCh d rest with
      | [] => [[c]]
      | s :: ss => (c :: s) :: ss

/-- JS `text.split('\n\n')`: split on the two-character paragraph delimiter,
scanning left to right, non-overlapping, empty pieces kept. -/
def splitParas : Str → List Str
  | [] => [[]]
  | [c] => [[c]]
  | a :: b :: rest =>
    if a = '\n' ∧ b = '\n' then [] :: splitParas rest
    else
      match splitParas (b :: rest) with
      | [] => [[a]]
      | s :: ss => (a :: s) :: ss

/-- Maximal runs of non-whitespace characters.  JS `s.split(/\s+/)` returns
these runs, plus empty strings at the ends when `s` starts or ends with
whitespace; the retriever filters tokens by length afterwards, so the empty
end tokens never survive and are omitted here. -/
def splitWsRuns : Str → List Str
  | [] => []
  | c :: rest =>
    if c.isWhitespace then splitWsRuns rest
    else
      match rest, splitWsRuns rest with
      | d :: _, run :: rs => if d.isWhitespace then [c] :: run :: rs else (c :: run) :: rs
      | _, tailRuns => [c] :: tailRuns

/-- The two-newline paragraph delimiter re-inserted by the chunker. -/
def nl2 : Str := ['\n', '\n']

/-- One step of `TaxGPT.createChunks`'s accumulation loop over paragraphs:
state is (completed chunks, current accumulation buffer). -/
def chunkStep (chunkSize : Nat) (st : List Str × Str) (para : Str) : List Str × Str :=
  if st.2.length + para.length > chunkSize ∧ st.2.length > 0 then
    (st.1 ++ [trimStr st.2], para)
  else
    (st.1, st.2 ++ nl2 ++ para)

/-- `TaxGPT.createChunks(text, chunkSize)`: split on blank lines, greedily
accumulate paragraphs (re-inserting the delimiter), flush the trimmed buffer
when the next paragraph would overflow, and flush a final non-empty buffer. -/
def createChunks (text : Str) (chunkSize : Nat) : List Str :=
  let st := (splitParas text).foldl (chunkStep chunkSize) ([], [])
  if trimStr st.2 = [] then st.1 else st.1 ++ [trimStr st.2]

/-- The keyword list of `TaxGPT.findRelevantChunks`: whitespace tokens of the
lowercased query that are longer than 3 characters. -/
def queryKeywords (query : Str) : List Str :=
  (splitWsRuns (lowerStr query)).filter (fun w => w.length > 3)

/-- The per-chunk relevance score of `TaxGPT.findRelevantChunks`, exactly as
computed: +10 for the full lowercased query as a substring of the lowercased
chunk, +2 per keyword found in the lowercased chunk, and +1 when the raw
(not lowercased) chunk contains `Table` or `$`. -/
def relevanceScore (query chunk : Str) : Nat :=
  let queryLower := lowerStr query
  let chunkLower := lowerStr chunk
  let s1 := if includesSub chunkLower queryLower then 10 else 0
  let s2 := (queryKeywords query).foldl
    (fun acc kw => if includesSub chunkLower kw then acc + 2 else acc) s1
  if includesSub chunk (chars "Table") || includesSub chunk (chars "$") then s2 + 1 else s2

/-- A chunk paired with its score and original position, the element type of
the `scored` array in `findRelevantChunks`. -/
structure Scored where
  chunk : Str
  score : Nat
  idx : Nat
deriving DecidableEq, Repr

/-- The `scored` array of `findRelevantChunks`. -/
def scoredOf (chunks : List Str) (query : Str) : List Scored :=
  chunks.enum.map (fun p => ⟨p.2, relevanceScore query p.2, p.1⟩)

/-- The JS sort comparator `(a, b) => b.score - a.score`, as the total
preorder it induces: `a` may precede `b` iff `b.score ≤ a.score`.  JS
`Array.prototype.sort` is stable, so the sorted array is the stable sort of
`scored` under this preorder, here `List.mergeSort`. -/
def scoreLe (a b : Scored) : Bool := decide (b.score ≤ a.score)

/-- The sorted `scored` array of `findRelevantChunks`. -/
def sortedScored (chunks : List Str) (query : Str) : List Scored :=
  (scoredOf chunks query).mergeSort scoreLe

/-- `TaxGPT.findRelevantChunks(query, maxChunks)` over a given chunk list:
score every chunk, sort by descending score (stable), take the first
`maxChunks`, and project back to the chunk text. -/
def findRelevantChunks (chunks : List Str) (query : Str) (maxChunks : Nat) : List Str :=
  ((sortedScored chunks query).take maxChunks).map Scored.chunk

/-- The terminal escape character. -/
def esc : Char := Char.ofNat 27

/-- Opening ANSI sequence of `C.highlight` (`chalk.hex('#34C759')`),
truecolor foreground 52,199,89. -/
def hlOpen : Str := esc :: chars "[38;2;52;199;89m"

/-- Closing ANSI sequence of a chalk foreground color. -/
def fgClose : Str := esc :: chars "[39m"

/-- Opening ANSI sequence of `C.dim` (`chalk.hex('#636366')`). -/
def dimOpen : Str := esc :: chars "[38;2;99;99;102m"

/-- Opening ANSI sequence of `C.agent` (`chalk.hex('#FFFFFF')`). -/
def agentOpen : Str := esc :: chars "[38;2;255;255;255m"

/-- ANSI sequences of `chalk.bold`. -/
def boldOpen : Str := esc :: chars "[1m"
/-- Closing ANSI sequence of `chalk.bold`. -/
def boldClose : Str := esc :: chars "[22m"
/-- ANSI sequences of `chalk.italic`. -/
def italOpen : Str := esc :: chars "[3m"
/-- Closing ANSI sequence of `chalk.italic`. -/
def italClose : Str := esc :: chars "[23m"
/-- ANSI sequences of `chalk.underline`. -/
def undOpen : Str := esc :: chars "[4m"
/-- Closing ANSI sequence of `chalk.underline`. -/
def undClose : Str := esc :: chars "[24m"

/-- A dollar-amount character, the class `[\d,]` of `formatLine`'s first
rewrite. -/
def isDigitComma (c : Char) : Bool := c.isDigit || c = ','

/-- Rewrite 1 of `formatLine`: `text.replace(/(\$[\d,]+)/g, C.highlight('$1'))`.
Scans left to right; at `$` followed by a non-empty maximal run of digits and
commas, wraps `$` and the run in the highlight color and resumes after the
match (the replacement text is not rescanned, as with JS `replace`).  Since
`%` never ends the character class, the regex's backtracking never produces a
match the maximal-run scan misses. -/
def replaceDollarGo : Nat → Str → Str
  | 0, s => s
  | _, [] => []
  | fuel + 1, '$' :: rest =>
    let run := rest.takeWhile isDigitComma
    if run.isEmpty then '$' :: replaceDollarGo fuel rest
    else hlOpen ++ '$' :: run ++ fgClose ++ replaceDollarGo fuel (rest.drop run.length)
  | fuel + 1, c :: rest => c :: replaceDollarGo fuel rest

/-- Fuel wrapper: every scan step consumes at least one input character, so
one unit of fuel per character (plus one) always suffices. -/
def replaceDollar (s : Str) : Str := replaceDollarGo (s.length + 1) s

/-- Rewrite 2 of `formatLine`: `text.replace(/(\d+%)/g, C.highlight('$1'))`.
A maximal digit run followed by `%` is wrapped in the highlight color;
when the character after a maximal digit run is not `%`, no suffix of the
run can match either, so the scan resumes after the run. -/
def replacePercentGo : Nat → Str → Str
  | 0, s => s
  | _, [] => []
  | fuel + 1, c :: rest =>
    if c.isDigit then
      match rest.drop (rest.takeWhile Char.isDigit).length with
      | '%' :: tail =>
        hlOpen ++ c :: rest.takeWhile Char.isDigit ++ '%' :: fgClose
          ++ replacePercentGo fuel tail
      | _ =>
        c :: rest.takeWhile Char.isDigit
          ++ replacePercentGo fuel (rest.drop (rest.takeWhile Char.isDigit).length)
    else c :: replacePercentGo fuel rest

/-- Fuel wrapper: every scan step consumes at least one input character. -/
def replacePercent (s : Str) : Str := replacePercentGo (s.length + 1) s


/-- Earliest occurrence of `**` in a string: `some (before, after)` with the
string equal to `before ++ "**" ++ after` and no `**` starting inside
`before`. -/
def findStar2 : Str → Option (Str × Str)
  | [] => none
  | [_] => none
  | a :: b :: rest =>
    if a = '*' ∧ b = '*' then some ([], rest)
    else (findStar2 (b :: rest)).map (fun p => (a :: p.1, p.2))

/-- A successful `findStar2` consumes at least the two stars. -/
theorem findStar2_length {s : Str} {p : Str × Str} (h : findStar2 s = some p) :
    p.2.length + 2 ≤ s.length := by
  induction s generalizing p with
  | nil => simp [findStar2] at h
  | cons a rest ih =>
    cases rest with
    | nil => simp [findStar2] at h
    | cons b rest2 =>
      rw [findStar2] at h
      by_cases hab : a = '*' ∧ b = '*'
      · rw [if_pos hab] at h
        cases h
        simp
      · rw [if_neg hab] at h
        cases hq : findStar2 (b :: rest2) with
        | none => rw [hq] at h; simp at h
        | some q =>
          rw [hq] at h
          cases h
          have := ih hq
          simpa using Nat.le_succ_of_le this

/-- Rewrite 3 of `formatLine`:
`text.replace(/\*\*(.+?)\*\*/g, (_, p1) => chalk.bold(p1))`.  At an opening
`**`, the lazy group takes the shortest non-empty span up to the next `**`;
with no closer at this position the regex engine advances one character and
retries from the second star. -/
def replaceBoldGo : Nat → Str → Str
  | 0, s => s
  | _, [] => []
  | fuel + 1, '*' :: '*' :: rest =>
    match rest with
    | c :: rest2 =>
      match findStar2 rest2 with
      | some (content, tail) => boldOpen ++ c :: content ++ boldClose ++ replaceBoldGo fuel tail
      | none => '*' :: replaceBoldGo fuel ('*' :: c :: rest2)
    | [] => ['*', '*']
  | fuel + 1, c :: rest => c :: replaceBoldGo fuel rest

/-- Fuel wrapper: every scan step strictly shortens the input (a successful
match consumes it past the closing stars, a failed one advances one star). -/
def replaceBold (s : Str) : Str := replaceBoldGo (s.length + 1) s

/-- Earliest occurrence of `_` in a string: `some (before, after)` with the
string equal to `before ++ "_" ++ after` and no `_` inside `before`. -/
def findUnder : Str → Option (Str × Str)
  | [] => none
  | a :: rest =>
    if a = '_' then some ([], rest)
    else (findUnder rest).map (fun p => (a :: p.1, p.2))

/-- A successful `findUnder` consumes at least the underscore. -/
theorem findUnder_length {s : Str} {p : Str × Str} (h : findUnder s = some p) :
    p.2.length + 1 ≤ s.length := by
  induction s generalizing p with
  | nil => simp [findUnder] at h
  | cons a rest ih =>
    rw [findUnder] at h
    by_cases ha : a = '_'
    · rw [if_pos ha] at h
      cases h
      simp
    · rw [if_neg ha] at h
      cases hq : findUnder rest with
      | none => rw [hq] at h; simp at h
      | some q =>
        rw [hq] at h
        cases h
        have := ih hq
        simpa using Nat.le_succ_of_le this

/-- Rewrite 4 of `formatLine`:
`text.replace(/_(.+?)_/g, (_, p1) => chalk.italic(p1))`, with the same lazy
single-delimiter structure as the bold rewrite. -/
def replaceItalicGo : Nat → Str → Str
  | 0, s => s
  | _, [] => []
  | fuel + 1, '_' :: rest =>
    match rest with
    | c :: rest2 =>
      match findUnder rest2 with
      | some (content, tail) =>
        italOpen ++ c :: content ++ italClose ++ replaceItalicGo fuel tail
      | none => '_' :: replaceItalicGo fuel (c :: rest2)
    | [] => ['_']
  | fuel + 1, c :: rest => c :: replaceItalicGo fuel rest

/-- Fuel wrapper: every scan step strictly shortens the input. -/
def replaceItalic (s : Str) : Str := replaceItalicGo (s.length + 1) s

/-- Rewrite 5 of `formatLine`: `text.replace(/^\*\s/, C.dim('• ') + ' ')` —
a leading star followed by one whitespace character becomes a dimmed bullet
glyph plus a space. -/
def replaceBullet (s : Str) : Str :=
  match s with
  | '*' :: c :: rest =>
    if c.isWhitespace then dimOpen ++ chars "• " ++ fgClose ++ ' ' :: rest else s
  | _ => s

/-- Shared body of the two header rewrites `^###\s+(.+)$` and `^##\s+(.+)$`:
given the text after the hash marks, returns the captured group when the
pattern matches (greedy `\s+`, then a non-empty remainder; when everything
after the hashes is whitespace, the greedy run backtracks one character so
that `.+` can still match, which requires at least two whitespace
characters). -/
def headerCapture (rest : Str) : Option Str :=
  let wsRun := rest.takeWhile Char.isWhitespace
  let after := rest.drop wsRun.length
  if wsRun.isEmpty then none
  else if after.isEmpty then
    if wsRun.length ≥ 2 then some (rest.drop (wsRun.length - 1)) else none
  else some after

/-- Rewrite 6 of `formatLine`:
`text.replace(/^###\s+(.+)$/, (_, p1) => chalk.bold.underline(p1))`. -/
def replaceH3 (s : Str) : Str :=
  match s with
  | '#' :: '#' :: '#' :: rest =>
    match headerCapture rest with
    | some p1 => boldOpen ++ undOpen ++ p1 ++ undClose ++ boldClose
    | none => s
  | _ => s

/-- Rewrite 7 of `formatLine`:
`text.replace(/^##\s+(.+)$/, (_, p1) => chalk.bold(p1))`.  The third hash of
an `###` header fails `\s+`, and an already rewritten `###` line starts with
an escape character, so the two header rewrites never both fire. -/
def replaceH2 (s : Str) : Str :=
  match s with
  | '#' :: '#' :: rest =>
    match headerCapture rest with
    | some p1 => boldOpen ++ p1 ++ boldClose
    | none => s
  | _ => s

/-- `formatLine` of `formatter.js`: the seven regex rewrites applied in
source order (dollar amounts, percentages, bold, italic, leading bullet,
`###` header, `##` header), each operating on the output of the previous
one. -/
def formatLine (text : Str) : Str :=
  replaceH2 (replaceH3 (replaceBullet (replaceItalic (replaceBold
    (replacePercent (replaceDollar text))))))

/-- A table cell consisting only of dashes and colons (JS `/^[-:]+$/`):
non-empty and drawn from `-`/`:` alone. -/
def sepCell (cell : Str) : Bool :=
  cell.length > 0 && cell.all (fun c => c = '-' || c = ':')

/-- Whether a line is collected into a table block: its trimmed text starts
with a pipe. -/
def pipeLine (line : Str) : Bool :=
  match trimStr line with
  | '|' :: _ => true
  | [] => false
  | _ :: _ => false

/-- Row parsing in `renderTable`: split the raw line on `|`, trim every
cell, and drop empty cells. -/
def parseRow (line : Str) : List Str :=
  ((splitOnCh '|' line).map trimStr).filter (fun cell => cell.length > 0)

/-- `renderTable(lines, startIdx)` of `formatter.js`, up to the point where
the decision to render is made: collects the contiguous block of pipe lines,
parses rows, drops all-separator rows, and either declines (`rendered:
null`, modelled as `none`, with `endIdx = startIdx`) or accepts and renders
the ASCII table from the retained data rows (modelled as `some dataRows`,
with `endIdx` past the block).  The box-drawing/padding assembly of the
accepted case always yields a non-null string and adds nothing to the
accept/decline decision, so the rendered text is abstracted to the data rows
it is built from. -/
def renderTable (lines : List Str) (startIdx : Nat) : Option (List (List Str)) × Nat :=
  let tableLines := (lines.drop startIdx).takeWhile pipeLine
  if tableLines.length < 2 then (none, startIdx)
  else
    let rows := (tableLines.map parseRow).filter (fun row => row.length > 0)
    if rows.length < 2 then (none, startIdx)
    else
      let dataRows := rows.filter (fun row => !row.all sepCell)
      if dataRows.length = 0 then (none, startIdx)
      else (some dataRows, startIdx + tableLines.length)

/-- One rendered item of `renderMarkdown`: a plain formatted line, or an
ASCII table (abstracted to its data rows). -/
inductive RItem where
  | plain (line : Str)
  | table (dataRows : List (List Str))
deriving DecidableEq, Repr

/-- The line loop of `renderMarkdown`: at a pipe-starting line try
`renderTable`; on success jump past the table block, otherwise (and on every
other line) emit the `formatLine`-formatted line.  `fuel` bounds the number
of iterations; the loop advances `i` by at least one per iteration, so
`lines.length` iterations always suffice. -/
def renderMarkdownLoop (lines : List Str) : Nat → Nat → List RItem
  | _, 0 => []
  | i, fuel + 1 =>
    match lines.drop i with
    | [] => []
    | line :: _ =>
      if pipeLine line then
        match renderTable lines i with
        | (some dataRows, endIdx) => .table dataRows :: renderMarkdownLoop lines endIdx fuel
        | (none, _) => .plain (formatLine line) :: renderMarkdownLoop lines (i + 1) fuel
      else .plain (formatLine line) :: renderMarkdownLoop lines (i + 1) fuel

/-- `renderMarkdown(content)` of `formatter.js`: split on newlines and run
the line loop from index 0. -/
def renderMarkdown (content : Str) : List RItem :=
  let lines := splitOnCh '\n' content
  renderMarkdownLoop lines 0 lines.length

/-- The two-space indent written before each streamed line,
`C.agent('  ')`. -/
def agentIndent : Str := agentOpen ++ chars "  " ++ fgClose

/-- State of `TaxGPT.streamResponse` while consuming deltas: `full` is
`fullContent`, `emitted` the lines already written to the terminal (each
indented and `formatLine`-formatted), `cur` the `currentLine` partial-line
buffer. -/
structure StreamState where
  full : Str
  emitted : List Str
  cur : Str
deriving DecidableEq, Repr

/-- The initial stream state. -/
def streamInit : StreamState := ⟨[], [], []⟩

/-- Processing of one delta in `streamResponse`'s `for await` loop: empty
deltas are skipped; a delta containing a newline causes `currentLine +
content` to be split on newlines, all complete lines to be emitted
immediately (indented, `formatLine`-formatted), and the trailing segment to
become the new buffer; otherwise the delta is appended to the buffer. -/
def processDelta (st : StreamState) (content : Str) : StreamState :=
  if content.isEmpty then st
  else
    let full := st.full ++ content
    if content.contains '\n' then
      let parts := splitOnCh '\n' (st.cur ++ content)
      { full := full,
        emitted := st.emitted ++ parts.dropLast.map (fun l => agentIndent ++ formatLine l),
        cur := parts.getLastD [] }
    else { full := full, emitted := st.emitted, cur := st.cur ++ content }

/-- The stream state after consuming a prefix of the delta sequence (the
loop of `streamResponse`, before the end-of-stream flush). -/
def streamRun (deltas : List Str) : StreamState :=
  deltas.foldl processDelta streamInit

/-- `TaxGPT.streamResponse` over a delta sequence: run the loop, then flush
a non-empty remaining partial line.  The deferred whole-response markdown
re-render (triggered when the accumulated text contains a pipe) rewrites the
terminal only and is modelled separately by `streamRerender`; the function's
return value is `full` regardless. -/
def streamResponse (deltas : List Str) : StreamState :=
  let st := streamRun deltas
  if st.cur.isEmpty then st
  else { st with emitted := st.emitted ++ [agentIndent ++ formatLine st.cur] }

/-- The deferred table re-render at the end of `streamResponse`: when the
accumulated content contains a pipe character, the naive line output is
replaced by a full `renderMarkdown` pass. -/
def streamRerender (deltas : List Str) : Option (List RItem) :=
  let st := streamResponse deltas
  if st.full.contains '|' then some (renderMarkdown st.full) else none

/-- JSON values, the result of `JSON.parse` on a session file.  Only the
constructors used by session serialization matter, with numbers restricted
to the integers the session schema stores. -/
inductive Json where
  | jnull
  | jbool (b : Bool)
  | jnum (n : Int)
  | jstr (s : String)
  | jarr (xs : List Json)
  | jobj (fields : List (String × Json))

/-- Metadata of a session: `{ model, totalTurns }`. -/
structure Metadata where
  model : String
  totalTurns : Nat
deriving DecidableEq, Repr

/-- One conversation message: `{ role, content, timestamp }`. -/
structure Message where
  role : String
  content : String
  timestamp : String
deriving DecidableEq, Repr

/-- A session: `{ id, name, createdAt, messages, metadata }`. -/
structure Session where
  id : String
  name : String
  createdAt : String
  messages : List Message
  metadata : Metadata
deriving DecidableEq, Repr

/-- Content of a file in the sessions directory: valid JSON text (already
parsed), or text on which `JSON.parse` throws. -/
inductive FileData where
  | valid (j : Json)
  | invalid

/-- `MAX_HISTORY_TURNS` of `config.js`. -/
def MAX_HISTORY_TURNS : Nat := 10

/-- In-memory and on-disk state of a `SessionManager`: the current session,
the cached `sessions` id listing, the files of the sessions directory
(filename to content), and whether the directory is readable (`fs.readdir`
succeeds). -/
structure ManagerState where
  currentSession : Option Session
  sessions : List String
  files : List (String × FileData)
  dirReadable : Bool

/-- `JSON.stringify` of a message, at the level of the JSON value tree. -/
def encodeMessage (m : Message) : Json :=
  .jobj [("role", .jstr m.role), ("content", .jstr m.content),
         ("timestamp", .jstr m.timestamp)]

/-- `JSON.stringify` of a session, at the level of the JSON value tree
(field order as in the object literal of `createSession`). -/
def encodeSession (s : Session) : Json :=
  .jobj [("id", .jstr s.id), ("name", .jstr s.name),
         ("createdAt", .jstr s.createdAt),
         ("messages", .jarr (s.messages.map encodeMessage)),
         ("metadata", .jobj [("model", .jstr s.metadata.model),
                             ("totalTurns", .jnum s.metadata.totalTurns)])]

/-- Field access on a parsed JSON object. -/
def getField (fields : List (String × Json)) (k : String) : Option Json :=
  fields.lookup k

/-- Reading a parsed JSON value back as a `Message` record. -/
def decodeMessage (j : Json) : Option Message :=
  match j with
  | .jobj fields =>
    match getField fields "role", getField fields "content",
          getField fields "timestamp" with
    | some (.jstr r), some (.jstr c), some (.jstr t) => some ⟨r, c, t⟩
    | _, _, _ => none
  | _ => none

/-- Reading a parsed JSON array back as a `Message` list. -/
def decodeMessages : List Json → Option (List Message)
  | [] => some []
  | j :: rest =>
    match decodeMessage j, decodeMessages rest with
    | some m, some ms => some (m :: ms)
    | _, _ => none

/-- Reading a parsed JSON value back as a `Session` record.  The JS
`loadSession` assigns `JSON.parse(data)` to `currentSession` without any
shape validation; this typed model can only represent values of the session
schema, so a valid-JSON file of a different shape is outside the model
(decoding it yields `none`). -/
def decodeSession (j : Json) : Option Session :=
  match j with
  | .jobj fields =>
    match getField fields "id", getField fields "name",
          getField fields "createdAt", getField fields "messages",
          getField fields "metadata" with
    | some (.jstr id), some (.jstr name), some (.jstr createdAt),
        some (.jarr msgs), some (.jobj metaFields) =>
      match decodeMessages msgs, getField metaFields "model",
            getField metaFields "totalTurns" with
      | some messages, some (.jstr model), some (.jnum (.ofNat turns)) =>
        some ⟨id, name, createdAt, messages, ⟨model, turns⟩⟩
      | _, _, _ => none
    | _, _, _, _, _ => none
  | _ => none

/-- The filename of a session's backing file, `` `${id}.json` ``. -/
def sessionFile (id : String) : String := id ++ ".json"

/-- `fs.writeFile`: create or fully overwrite a file. -/
def writeFile (files : List (String × FileData)) (name : String) (d : FileData) :
    List (String × FileData) :=
  (name, d) :: files.filter (fun kv => kv.1 ≠ name)

/-- `fs.unlink`: remove a file. -/
def unlinkFile (files : List (String × FileData)) (name : String) :
    List (String × FileData) :=
  files.filter (fun kv => kv.1 ≠ name)

/-- JS `f.replace('.json', '')` on a filename: remove the first occurrence
of `.json` (a plain-string `replace` only substitutes the first match). -/
def stripJson : List Char → List Char
  | [] => []
  | c :: rest =>
    if c = '.' ∧ (chars "json").isPrefixOf rest then rest.drop 4
    else c :: stripJson rest

/-- JS `f.endsWith('.json')`. -/
def endsWithJson (f : String) : Bool :=
  (chars ".json").isSuffixOf f.data

/-- Lexicographic (code-point) comparison of filenames; `localeCompare` is
approximated by code-point order. -/
def lexLe : List Char → List Char → Bool
  | [], _ => true
  | _ :: _, [] => false
  | a :: as, b :: bs => if a = b then lexLe as bs else decide (a < b)

/-- `SessionManager.loadSessionsList`: read the directory, keep `.json`
files, strip the extension, sort descending; on a read error leave an empty
list.  The returned state has the refreshed `sessions` cache. -/
def loadSessionsList (st : ManagerState) : ManagerState :=
  if st.dirReadable then
    let ids := ((st.files.map Prod.fst).filter endsWithJson).map
      (fun f => String.mk (stripJson f.data))
    { st with sessions := ids.mergeSort (fun a b => lexLe b.data a.data) }
  else { st with sessions := [] }

/-- `SessionManager.loadSession(sessionId)`: read and parse the backing
file into `currentSession`; a missing file or a `JSON.parse` failure is
caught and yields `null` with the state untouched. -/
def loadSession (st : ManagerState) (sessionId : String) :
    ManagerState × Option Session :=
  match st.files.lookup (sessionFile sessionId) with
  | none => (st, none)
  | some .invalid => (st, none)
  | some (.valid j) =>
    match decodeSession j with
    | some s => ({ st with currentSession := some s }, some s)
    | none => (st, none)

/-- `SessionManager.saveSession()`: a no-op without a current session,
otherwise serialize the current session over its backing file. -/
def saveSession (st : ManagerState) : ManagerState :=
  match st.currentSession with
  | none => st
  | some s =>
    { st with files := writeFile st.files (sessionFile s.id) (.valid (encodeSession s)) }

/-- `SessionManager.deleteSession(sessionId)`: unlink the backing file and
refresh the listing, returning `true`; a missing file makes `unlink` throw,
which is caught and returned as `false` with nothing refreshed. -/
def deleteSession (st : ManagerState) (sessionId : String) : ManagerState × Bool :=
  if (st.files.lookup (sessionFile sessionId)).isSome then
    (loadSessionsList { st with files := unlinkFile st.files (sessionFile sessionId) }, true)
  else (st, false)

/-- JS `Array.prototype.slice(-n)` on a list known through its length: the
last `n` elements. -/
def lastN (n : Nat) (l : List Message) : List Message :=
  l.drop (l.length - n)

/-- `SessionManager.addMessage(role, content)`: a no-op without a current
session; otherwise push a timestamped message, recompute `totalTurns` as the
number of user messages (before truncation), truncate to the last
`MAX_HISTORY_TURNS * 2` messages when over the cap, and persist.  The
fire-and-forget `saveSession()` is modelled as having completed. -/
def addMessage (st : ManagerState) (role content timestamp : String) : ManagerState :=
  match st.currentSession with
  | none => st
  | some s =>
    let msgs := s.messages ++ [⟨role, content, timestamp⟩]
    let meta := { s.metadata with totalTurns := msgs.countP (fun m => m.role == "user") }
    let msgs' := if msgs.length > MAX_HISTORY_TURNS * 2
      then lastN (MAX_HISTORY_TURNS * 2) msgs else msgs
    saveSession { st with currentSession := some { s with messages := msgs', metadata := meta } }

/-- The scoring formula exactly as the claim words it, for comparison with
the code: every membership test — including the `Table`/`$` bonus — done on
lowercased strings. -/
def claimScoreC2 (query chunk : Str) : Nat :=
  (if includesSub (lowerStr chunk) (lowerStr query) then 10 else 0)
  + 2 * (queryKeywords query).countP (includesSub (lowerStr chunk))
  + (if includesSub (lowerStr chunk) (lowerStr (chars "Table"))
        || includesSub (lowerStr chunk) (lowerStr (chars "$")) then 1 else 0)

/-- Accumulating +2 per satisfied keyword is the same as twice the count. -/
theorem foldl_two_eq_countP (p : Str → Bool) (l : List Str) (init : Nat) :
    l.foldl (fun acc kw => if p kw then acc + 2 else acc) init
      = init + 2 * l.countP p := by
  induction l generalizing init with
  | nil => simp
  | cons kw rest ih =>
    simp only [List.foldl_cons, List.countP_cons, ih]
    by_cases hkw : p kw <;> simp [hkw] <;> ring

/-- C2 counterexample: the claim prices the `Table` bonus case-insensitively,
but the code tests the raw chunk; on chunk `table` (lowercase) and query
`zzzz` the code scores 0 while the claimed formula scores 1. -/
theorem relevanceScore_case_counterexample :
    relevanceScore (chars "zzzz") (chars "table") = 0
    ∧ claimScoreC2 (chars "zzzz") (chars "table") = 1
    ∧ relevanceScore (chars "zzzz") (chars "table")
        ≠ claimScoreC2 (chars "zzzz") (chars "table") := by
  decide

/-- C2 (amended): the relevance score is 10 for the full lowercased query as
a substring of the lowercased chunk, plus 2 per keyword (length > 3 token of
the lowercased query) found in the lowercased chunk, plus 1 when the RAW
chunk contains `Table` or `$` — the bonus test alone is case-sensitive. -/
theorem relevanceScore_eq_amended (query chunk : Str) :
    relevanceScore query chunk =
      (if includesSub (lowerStr chunk) (lowerStr query) then 10 else 0)
      + 2 * (queryKeywords query).countP (includesSub (lowerStr chunk))
      + (if includesSub chunk (chars "Table") || includesSub chunk (chars "$")
          then 1 else 0) := by
  unfold relevanceScore
  dsimp only
  rw [foldl_two_eq_countP]
  split <;> omega

/-- Refreshing the session listing does not touch the current session. -/
theorem loadSessionsList_currentSession (st : ManagerState) :
    (loadSessionsList st).currentSession = st.currentSession := by
  unfold loadSessionsList
  split <;> rfl

/-- C10: `deleteSession` leaves the in-memory current session unchanged for
every session id — including the current session's own id — whether or not
the backing file exists; it only unlinks the file and refreshes the cached
listing. -/
theorem deleteSession_preserves_currentSession (st : ManagerState) (sessionId : String) :
    (deleteSession st sessionId).1.currentSession = st.currentSession := by
  unfold deleteSession
  split
  · exact loadSessionsList_currentSession _
  · rfl

/-- Encoding then decoding a message is the identity. -/
theorem decodeMessage_encodeMessage (m : Message) :
    decodeMessage (encodeMessage m) = some m := by
  cases m
  rfl

/-- Encoding then decoding a message list is the identity. -/
theorem decodeMessages_map_encodeMessage (l : List Message) :
    decodeMessages (l.map encodeMessage) = some l := by
  induction l with
  | nil => rfl
  | cons m rest ih => simp [decodeMessages, decodeMessage_encodeMessage, ih]

/-- Encoding then decoding a session is the identity. -/
theorem decodeSession_encodeSession (s : Session) :
    decodeSession (encodeSession s) = some s := by
  obtain ⟨id, name, createdAt, msgs, mdl, turns⟩ := s
  simp [encodeSession, decodeSession, getField, List.lookup,
    decodeMessages_map_encodeMessage]

/-- Saving does not change the in-memory current session. -/
theorem saveSession_currentSession (st : ManagerState) :
    (saveSession st).currentSession = st.currentSession := by
  unfold saveSession
  cases h : st.currentSession <;> simp [h]

/-- C6: saving the current session and loading it back by its id restores a
session equal field-by-field (id, name, createdAt, messages, metadata) to
the one saved, and installs it as the current session.  (All sessions of the
typed model are JSON-representable; `JSON.stringify`/`JSON.parse` are
modelled at the level of the JSON value tree.) -/
theorem saveSession_loadSession_roundtrip (st : ManagerState) (s : Session)
    (h : st.currentSession = some s) :
    (loadSession (saveSession st) s.id).2 = some s
    ∧ (loadSession (saveSession st) s.id).1.currentSession = some s := by
  unfold saveSession
  rw [h]
  unfold loadSession
  have hlookup :
      List.lookup (sessionFile s.id)
        (writeFile st.files (sessionFile s.id) (.valid (encodeSession s)))
        = some (.valid (encodeSession s)) := by
    simp [writeFile, List.lookup]
  simp [hlookup, decodeSession_encodeSession]

/-- A concrete session for the round-trip witness. -/
def c6Session : Session :=
  ⟨"session-2025", "session-2025", "2025-10-11T00:00:00Z",
    [⟨"user", "What is the standard deduction?", "t1"⟩,
     ⟨"assistant", "It depends on filing status.", "t2"⟩],
    ⟨"google/gemini-3-flash-preview", 1⟩⟩

/-- A concrete manager state holding `c6Session`. -/
def c6State : ManagerState := ⟨some c6Session, [], [], true⟩

/-- Witness for C6 at a concrete state. -/
theorem saveSession_loadSession_roundtrip_witness :
    (loadSession (saveSession c6State) c6Session.id).2 = some c6Session
    ∧ (loadSession (saveSession c6State) c6Session.id).1.currentSession
        = some c6Session :=
  saveSession_loadSession_roundtrip c6State c6Session rfl

/-- `slice(-n)` through take/reverse. -/
theorem lastN_eq_reverse_take (n : Nat) (l : List Message) :
    lastN n l = (l.reverse.take n).reverse := by
  rw [List.take_reverse, List.reverse_reverse]
  rfl

/-- A list not longer than `n` is untouched by `slice(-n)`. -/
theorem lastN_of_le {n : Nat} {l : List Message} (h : l.length ≤ n) : lastN n l = l := by
  simp [lastN, Nat.sub_eq_zero_of_le h]

/-- `slice(-n)` keeps at most `n` elements. -/
theorem lastN_length_le (n : Nat) (l : List Message) : (lastN n l).length ≤ n := by
  simp only [lastN, List.length_drop]
  omega

/-- Taking `n` from a list whose second part was already cut to `n` is the
same as taking `n` from the uncut list. -/
theorem take_take_append (n : Nat) (a b : List Message) :
    (a ++ b.take n).take n = (a ++ b).take n := by
  rw [List.take_append_eq_append_take, List.take_append_eq_append_take, List.take_take]
  rw [min_eq_left (Nat.sub_le n a.length)]

/-- Truncating to the last `n`, appending, and truncating again is the same
as truncating the whole concatenation: the per-call `slice(-n)` of
`addMessage` composes to a single global suffix. -/
theorem lastN_append_lastN (n : Nat) (l r : List Message) :
    lastN n (lastN n l ++ r) = lastN n (l ++ r) := by
  simp only [lastN_eq_reverse_take, List.reverse_append, List.reverse_reverse]
  rw [take_take_append]

/-- The session produced by one `addMessage` call on a current session:
message pushed, turn counter recomputed on the untruncated list, history
truncated to the last `MAX_HISTORY_TURNS * 2` entries. -/
theorem addMessage_currentSession {st : ManagerState} {s : Session}
    (h : st.currentSession = some s) (r c t : String) :
    (addMessage st r c t).currentSession =
      some { s with
        messages := lastN (MAX_HISTORY_TURNS * 2) (s.messages ++ [⟨r, c, t⟩]),
        metadata := { s.metadata with totalTurns :=
          (s.messages ++ [(⟨r, c, t⟩ : Message)]).countP (fun m => m.role == "user") } } := by
  unfold addMessage
  rw [h]
  dsimp only
  rw [saveSession_currentSession]
  dsimp only
  split
  · rfl
  · next hlen => rw [lastN_of_le (Nat.le_of_not_lt hlen)]

/-- A sequence of `addMessage` calls, one per (role, content, timestamp)
triple, in order. -/
def applyAdds (st : ManagerState) (inputs : List (String × String × String)) : ManagerState :=
  inputs.foldl (fun acc p => addMessage acc p.1 p.2.1 p.2.2) st

/-- The message of an `addMessage` input triple. -/
def mkMessage (p : String × String × String) : Message := ⟨p.1, p.2.1, p.2.2⟩

/-- Folded form of repeated `addMessage`: the stored history is the last
`MAX_HISTORY_TURNS * 2` of everything ever appended. -/
theorem applyAdds_messages (inputs : List (String × String × String)) :
    ∀ (st : ManagerState) (s : Session), st.currentSession = some s →
      s.messages.length ≤ MAX_HISTORY_TURNS * 2 →
      ∃ s', (applyAdds st inputs).currentSession = some s' ∧
        s'.messages = lastN (MAX_HISTORY_TURNS * 2) (s.messages ++ inputs.map mkMessage) := by
  induction inputs with
  | nil =>
    intro st s h hlen
    exact ⟨s, h, by simp [lastN_of_le hlen]⟩
  | cons p rest ih =>
    intro st s h hlen
    have hstep := addMessage_currentSession h p.1 p.2.1 p.2.2
    obtain ⟨s', hs', hmsgs⟩ :=
      ih (addMessage st p.1 p.2.1 p.2.2) _ hstep (lastN_length_le _ _)
    refine ⟨s', hs', ?_⟩
    rw [hmsgs]
    dsimp only
    rw [lastN_append_lastN]
    simp [mkMessage]

/-- C1: after every `addMessage` call the current session holds at most
`MAX_HISTORY_TURNS * 2 = 20` messages, truncated oldest-first; appending 50
messages (25 user/assistant pairs) to a fresh session leaves exactly the 20
most recently appended messages in their original order. -/
theorem addMessage_history_bound :
    (∀ (st : ManagerState) (r c t : String) (s' : Session),
        (addMessage st r c t).currentSession = some s' →
        s'.messages.length ≤ MAX_HISTORY_TURNS * 2)
    ∧ (∀ (inputs : List (String × String × String)) (st : ManagerState) (s : Session),
        st.currentSession = some s → s.messages = [] → inputs.length = 50 →
        (applyAdds st inputs).currentSession.map Session.messages =
          some ((inputs.map mkMessage).drop 30)) := by
  constructor
  · intro st r c t s' h
    cases hc : st.currentSession with
    | none =>
      unfold addMessage at h
      rw [hc] at h
      rw [hc] at h
      exact absurd h (by simp)
    | some s =>
      rw [addMessage_currentSession hc r c t] at h
      cases h
      exact lastN_length_le _ _
  · intro inputs st s h hempty hlen
    obtain ⟨s', hs', hmsgs⟩ := applyAdds_messages inputs st s h (by simp [hempty])
    have hml : (inputs.map mkMessage).length = 50 := by simp [hlen]
    rw [hs']
    simp only [Option.map_some', hmsgs, hempty, List.nil_append, lastN, hml]
    rfl

/-- The 25 user/assistant pairs of the C1 example. -/
def c1Inputs : List (String × String × String) :=
  (List.replicate 25 [("user", "q", "t"), ("assistant", "a", "t")]).flatten

/-- A fresh session for the C1 witness. -/
def c1Session : Session := ⟨"s", "s", "now", [], ⟨"m", 0⟩⟩

/-- A manager state holding the fresh C1 session. -/
def c1State : ManagerState := ⟨some c1Session, [], [], true⟩

/-- Witness for C1: both conjuncts applied at concrete inputs. -/
theorem addMessage_history_bound_witness :
    (∃ s', (addMessage c1State "user" "hi" "t0").currentSession = some s'
        ∧ s'.messages.length ≤ MAX_HISTORY_TURNS * 2)
    ∧ (applyAdds c1State c1Inputs).currentSession.map Session.messages =
        some ((c1Inputs.map mkMessage).drop 30) :=
  ⟨⟨_, rfl, addMessage_history_bound.1 c1State "user" "hi" "t0" _ rfl⟩,
    addMessage_history_bound.2 c1Inputs c1State c1Session rfl rfl (by decide)⟩

/-- One delta always extends the accumulated text by exactly itself. -/
theorem processDelta_full (st : StreamState) (content : Str) :
    (processDelta st content).full = st.full ++ content := by
  unfold processDelta
  split
  · next hempty => simp [List.isEmpty_iff.mp hempty]
  · split <;> rfl

/-- The loop accumulates the concatenation of all deltas. -/
theorem foldl_processDelta_full (l : List Str) :
    ∀ st : StreamState, (l.foldl processDelta st).full = st.full ++ l.flatten := by
  induction l with
  | nil => intro st; simp
  | cons content rest ih =>
    intro st
    simp [ih, processDelta_full, List.append_assoc]

/-- One delta only appends to the emitted lines. -/
theorem processDelta_emitted_extend (st : StreamState) (content : Str) :
    st.emitted <+: (processDelta st content).emitted := by
  unfold processDelta
  split
  · exact List.prefix_rfl
  · split
    · exact List.prefix_append _ _
    · exact List.prefix_rfl

/-- The loop only appends to the emitted lines. -/
theorem foldl_processDelta_emitted_extend (l : List Str) :
    ∀ st : StreamState, st.emitted <+: (l.foldl processDelta st).emitted := by
  induction l with
  | nil => intro st; exact List.prefix_rfl
  | cons content rest ih =>
    intro st
    exact (processDelta_emitted_extend st content).trans (ih _)

/-- `split` always returns at least one piece. -/
theorem splitOnCh_ne_nil (d : Char) (s : Str) : splitOnCh d s ≠ [] := by
  cases s with
  | nil => simp [splitOnCh]
  | cons c rest =>
    unfold splitOnCh
    split
    · simp
    · cases hL : splitOnCh d rest <;> simp

/-- The trailing piece of a `split` never contains the delimiter: the
retained partial-line buffer holds no newline. -/
theorem splitOnCh_getLastD_not_contains (d : Char) (s : Str) :
    ((splitOnCh d s).getLastD []).contains d = false := by
  induction s with
  | nil => simp [splitOnCh]
  | cons c rest ih =>
    unfold splitOnCh
    split
    · next hc =>
      subst hc
      rwa [List.getLastD_cons]
    · next hc =>
      cases hL : splitOnCh d rest with
      | nil => exact absurd hL (splitOnCh_ne_nil d rest)
      | cons s0 ss =>
        rw [hL] at ih
        cases ss with
        | nil =>
          simp only [List.getLastD_cons, List.getLastD_nil] at ih ⊢
          have hmem : d ∉ s0 := by
            intro hd
            rw [(by simpa using hd : s0.contains d = true)] at ih
            cases ih
          have hnotin : d ∉ c :: s0 := by
            intro hd
            rcases List.mem_cons.mp hd with h1 | h2
            · exact hc h1.symm
            · exact hmem h2
          simpa using hnotin
        | cons s1 rest2 =>
          simp only [List.getLastD_cons] at ih ⊢
          exact ih

/-- The partial-line buffer never contains a newline across the loop:
every complete line is emitted the moment its newline arrives. -/
theorem foldl_processDelta_cur (l : List Str) :
    ∀ st : StreamState, st.cur.contains '\n' = false →
      ((l.foldl processDelta st).cur).contains '\n' = false := by
  induction l with
  | nil => intro st h; exact h
  | cons content rest ih =>
    intro st h
    refine ih _ ?_
    unfold processDelta
    split
    · exact h
    · split
      · exact splitOnCh_getLastD_not_contains '\n' _
      · next hnl =>
        have hc : content.contains '\n' = false := by
          revert hnl
          cases content.contains '\n' <;> simp
        simp [List.contains_eq_any_beq, List.any_append] at h hc ⊢
        exact ⟨h, hc⟩

/-- The delta sequence of the C8 example. -/
def c8Deltas : List Str :=
  [chars "Hello ", chars "wor", chars "ld\n", chars "Rate: ", chars "22%"]

/-- C8: the stream renderer accumulates exactly the concatenation of the
deltas; emitted lines are only ever appended (so a line emitted after one
delta is still in place after later ones) and the retained buffer never
holds a newline (complete lines are emitted immediately); on the example
deltas the first line `Hello world` is already emitted after the third
delta, the end-of-stream flush emits the remainder, and the `22%` of the
flushed second line is wrapped in the highlight marker. -/
theorem streamResponse_spec :
    (∀ deltas : List Str, (streamResponse deltas).full = deltas.flatten)
    ∧ (∀ (deltas : List Str) (k : Nat),
        (streamRun (deltas.take k)).emitted <+: (streamResponse deltas).emitted)
    ∧ (∀ deltas : List Str, ((streamRun deltas).cur).contains '\n' = false)
    ∧ (streamResponse c8Deltas).full = chars "Hello world\nRate: 22%"
    ∧ (streamRun (c8Deltas.take 3)).emitted = [agentIndent ++ chars "Hello world"]
    ∧ (streamResponse c8Deltas).emitted =
        [agentIndent ++ chars "Hello world",
         agentIndent ++ chars "Rate: " ++ hlOpen ++ chars "22%" ++ fgClose] := by
  have hfull : ∀ deltas : List Str, (streamResponse deltas).full = deltas.flatten := by
    intro deltas
    unfold streamResponse
    dsimp only
    split
    · exact foldl_processDelta_full deltas streamInit
    · exact foldl_processDelta_full deltas streamInit
  refine ⟨hfull, ?_, ?_, by decide, by decide, by decide⟩
  · intro deltas k
    have hsplit : streamRun deltas
        = (deltas.drop k).foldl processDelta (streamRun (deltas.take k)) := by
      unfold streamRun
      rw [← List.foldl_append, List.take_append_drop]
    have h1 : (streamRun (deltas.take k)).emitted <+: (streamRun deltas).emitted := by
      rw [hsplit]
      exact foldl_processDelta_emitted_extend _ _
    refine h1.trans ?_
    unfold streamResponse
    dsimp only
    split
    · exact List.prefix_rfl
    · exact List.prefix_append _ _
  · intro deltas
    exact foldl_processDelta_cur deltas streamInit rfl

/-- C7 counterexample: on the block `| A | B |` / `|---|---|` exactly one
data row remains after the separator is discarded, yet the code — which only
rejects when zero data rows remain — renders a (header-only) table, where
the claim requires fallback to plain rendering for fewer than 2 data rows. -/
theorem renderTable_single_data_row_counterexample :
    (renderTable [chars "| A | B |", chars "|---|---|"] 0).1
        = some [[chars "A", chars "B"]]
    ∧ ([[chars "A", chars "B"]] : List (List Str)).length < 2 := by
  decide

/-- C7 (amended): a block needs at least 2 contiguous pipe lines to be
considered; every all-dash/colon row is discarded as a separator and never
appears among the rendered data rows; no table is produced exactly when the
block has fewer than 2 pipe lines, or fewer than 2 nonempty parsed rows, or
ZERO data rows after discarding separators (one remaining data row still
produces a header-only table); a lone pipe line falls back to plain
`formatLine` rendering. -/
theorem renderTable_spec :
    (∀ (lines : List Str) (startIdx : Nat),
        ((lines.drop startIdx).takeWhile pipeLine).length < 2 →
          renderTable lines startIdx = (none, startIdx))
    ∧ (∀ (lines : List Str) (startIdx : Nat) (dataRows : List (List Str)),
        (renderTable lines startIdx).1 = some dataRows →
          ∀ row ∈ dataRows, row.all sepCell = false)
    ∧ (∀ (lines : List Str) (startIdx : Nat),
        (renderTable lines startIdx).1 = none ↔
          (let tl := (lines.drop startIdx).takeWhile pipeLine
           let rows := (tl.map parseRow).filter (fun row => row.length > 0)
           tl.length < 2 ∨ rows.length < 2
             ∨ (rows.filter (fun row => !row.all sepCell)).length = 0))
    ∧ renderMarkdown (chars "| A | B |") = [.plain (formatLine (chars "| A | B |"))] := by
  refine ⟨?_, ?_, ?_, by decide⟩
  · intro lines startIdx h
    unfold renderTable
    rw [if_pos h]
  · intro lines startIdx dataRows h row hrow
    unfold renderTable at h
    dsimp only at h
    split_ifs at h
    simp only [Option.some.injEq] at h
    subst h
    have := List.mem_filter.mp hrow
    simpa using this.2
  · intro lines startIdx
    unfold renderTable
    dsimp only
    split_ifs with h1 h2 h3
    · exact iff_of_true rfl (Or.inl h1)
    · exact iff_of_true rfl (Or.inr (Or.inl h2))
    · exact iff_of_true rfl (Or.inr (Or.inr h3))
    · exact iff_of_false (by simp) (fun h => h.elim h1 (fun h' => h'.elim h2 h3))

/-- Witness for C7's amended statement at concrete inputs. -/
theorem renderTable_spec_witness :
    renderTable [chars "| A | B |"] 0 = (none, 0)
    ∧ (∀ row ∈ [[chars "A", chars "B"]], row.all sepCell = false) :=
  ⟨renderTable_spec.1 [chars "| A | B |"] 0 (by decide),
   renderTable_spec.2.1 [chars "| A | B |", chars "|---|---|"] 0
     [[chars "A", chars "B"]] (by decide)⟩

/-- Trimming never lengthens a string. -/
theorem trimStr_length_le (s : Str) : (trimStr s).length ≤ s.length := by
  unfold trimStr
  have h1 := (@List.dropWhile_sublist Char s Char.isWhitespace).length_le
  have h2 :=
    (@List.dropWhile_sublist Char (s.dropWhile Char.isWhitespace).reverse
      Char.isWhitespace).length_le
  simp only [List.length_reverse] at h2 ⊢
  omega

/-- Trimming absorbs a leading paragraph delimiter. -/
theorem trimStr_nl2_append (p : Str) : trimStr (nl2 ++ p) = trimStr p := by
  have h : '\n'.isWhitespace = true := by decide
  simp [trimStr, nl2, List.dropWhile_cons, h]

/-- The chunker's accumulation buffer invariant: each completed chunk is
either at most `chunkSize + 2` characters long or the trim of a single
paragraph, and the buffer itself is either at most `chunkSize + 2` long or a
single paragraph, possibly still carrying the leading delimiter. -/
theorem chunkStep_fold_inv (N : Nat) (P : Str → Prop) :
    ∀ l : List Str, (∀ p ∈ l, P p) →
    ∀ st : List Str × Str,
      (∀ c ∈ st.1, c.length ≤ N + 2 ∨ ∃ p, P p ∧ c = trimStr p) →
      (st.2.length ≤ N + 2 ∨ ∃ p, P p ∧ (st.2 = p ∨ st.2 = nl2 ++ p)) →
      (∀ c ∈ (l.foldl (chunkStep N) st).1,
          c.length ≤ N + 2 ∨ ∃ p, P p ∧ c = trimStr p)
      ∧ ((l.foldl (chunkStep N) st).2.length ≤ N + 2
          ∨ ∃ p, P p ∧ ((l.foldl (chunkStep N) st).2 = p
              ∨ (l.foldl (chunkStep N) st).2 = nl2 ++ p)) := by
  intro l
  induction l with
  | nil => intro _ st h1 h2; exact ⟨h1, h2⟩
  | cons para rest ih =>
    intro hl st h1 h2
    have hpara : P para := hl para (by simp)
    have hrest : ∀ p ∈ rest, P p := fun p hp => hl p (by simp [hp])
    have htrim : (trimStr st.2).length ≤ N + 2
        ∨ ∃ p, P p ∧ trimStr st.2 = trimStr p := by
      rcases h2 with h | ⟨p, hp, hcc | hcc⟩
      · exact Or.inl (le_trans (trimStr_length_le st.2) h)
      · exact Or.inr ⟨p, hp, by rw [hcc]⟩
      · exact Or.inr ⟨p, hp, by rw [hcc, trimStr_nl2_append]⟩
    simp only [List.foldl_cons]
    apply ih hrest
    · unfold chunkStep
      split
      · intro c hc
        rcases List.mem_append.mp hc with hc | hc
        · exact h1 c hc
        · rw [List.mem_singleton] at hc
          subst hc
          exact htrim
      · intro c hc
        exact h1 c hc
    · unfold chunkStep
      split
      · exact Or.inr ⟨para, hpara, Or.inl rfl⟩
      · next hcond =>
        by_cases hlen : st.2.length = 0
        · have hnil : st.2 = [] := List.length_eq_zero.mp hlen
          refine Or.inr ⟨para, hpara, Or.inr ?_⟩
          rw [hnil]
          rfl
        · have hle : st.2.length + para.length ≤ N := by
            rcases Nat.lt_or_ge N (st.2.length + para.length) with h | h
            · exact absurd ⟨h, Nat.pos_of_ne_zero hlen⟩ hcond
            · exact h
          refine Or.inl ?_
          simp only [List.length_append, nl2, List.length_cons, List.length_nil]
          omega

/-- C4 counterexample: with `maxSize = 4` on `"aaaaa\n\nab\n\ncd"` the
second returned chunk `"ab\n\ncd"` joins two paragraphs of length 2 each,
has length 6 > 4, and is not (the trim of) any single source paragraph: the
size check ignores the two re-inserted delimiter characters. -/
theorem createChunks_oversize_counterexample :
    createChunks (chars "aaaaa\n\nab\n\ncd") 4 = [chars "aaaaa", chars "ab\n\ncd"]
    ∧ (chars "ab\n\ncd").length > 4
    ∧ splitParas (chars "aaaaa\n\nab\n\ncd") = [chars "aaaaa", chars "ab", chars "cd"]
    ∧ (∀ p ∈ splitParas (chars "aaaaa\n\nab\n\ncd"), trimStr p ≠ chars "ab\n\ncd") := by
  decide

/-- C4 (amended): every chunk returned by `createChunks(text, maxSize)` has
length at most `maxSize + 2` — the slack being the two characters of the
re-inserted `\n\n` joiner, which the size check does not count — except when
the chunk is the trim of a single source paragraph, which is never split and
may be arbitrarily long. -/
theorem createChunks_size_amended (text : Str) (N : Nat) :
    ∀ c ∈ createChunks text N,
      c.length ≤ N + 2 ∨ ∃ p ∈ splitParas text, c = trimStr p := by
  intro c hc
  have hinv := chunkStep_fold_inv N (fun p => p ∈ splitParas text) (splitParas text)
    (fun _ hp => hp) (([], []) : List Str × Str) (by simp) (Or.inl (by simp))
  unfold createChunks at hc
  dsimp only at hc
  have hfin : (trimStr ((splitParas text).foldl (chunkStep N) ([], [])).2).length ≤ N + 2
      ∨ ∃ p ∈ splitParas text,
          trimStr ((splitParas text).foldl (chunkStep N) ([], [])).2 = trimStr p := by
    rcases hinv.2 with h | ⟨p, hp, hcc | hcc⟩
    · exact Or.inl (le_trans (trimStr_length_le _) h)
    · exact Or.inr ⟨p, hp, by rw [hcc]⟩
    · exact Or.inr ⟨p, hp, by rw [hcc, trimStr_nl2_append]⟩
  split at hc
  · rcases hinv.1 c hc with h | ⟨p, hp, hcp⟩
    · exact Or.inl h
    · exact Or.inr ⟨p, hp, hcp⟩
  · rcases List.mem_append.mp hc with hc | hc
    · rcases hinv.1 c hc with h | ⟨p, hp, hcp⟩
      · exact Or.inl h
      · exact Or.inr ⟨p, hp, hcp⟩
    · rw [List.mem_singleton] at hc
      subst hc
      exact hfin

/-- Witness for C4's amended statement at a concrete chunk. -/
theorem createChunks_size_amended_witness :
    (chars "ab\n\ncd").length ≤ 4 + 2
    ∨ ∃ p ∈ splitParas (chars "aaaaa\n\nab\n\ncd"), chars "ab\n\ncd" = trimStr p :=
  createChunks_size_amended (chars "aaaaa\n\nab\n\ncd") 4 (chars "ab\n\ncd") (by decide)

/-- A non-whitespace character. -/
def nonWs (c : Char) : Bool := !c.isWhitespace

/-- Re-joining chunks with the two-newline paragraph delimiter (the inverse
direction of the paragraph split, used to state content preservation). -/
def joinChunks : List Str → Str
  | [] => []
  | [c] => c
  | c :: d :: rest => c ++ nl2 ++ joinChunks (d :: rest)

/-- Dropping leading whitespace does not change the non-whitespace
characters. -/
theorem filter_dropWhile_ws (s : Str) :
    (s.dropWhile Char.isWhitespace).filter nonWs = s.filter nonWs := by
  induction s with
  | nil => rfl
  | cons a rest ih =>
    by_cases ha : a.isWhitespace
    · simp [List.dropWhile_cons, ha, List.filter_cons, nonWs, ih]
    · simp [List.dropWhile_cons, ha]

/-- Trimming does not change the non-whitespace characters. -/
theorem filter_trimStr (s : Str) : (trimStr s).filter nonWs = s.filter nonWs := by
  unfold trimStr
  rw [List.filter_reverse, filter_dropWhile_ws, List.filter_reverse,
    List.reverse_reverse, filter_dropWhile_ws]

/-- The paragraph delimiter is pure whitespace. -/
theorem filter_nl2 : nl2.filter nonWs = [] := by decide

/-- Joining with the delimiter adds only whitespace. -/
theorem filter_joinChunks (l : List Str) :
    (joinChunks l).filter nonWs = (l.map (List.filter nonWs)).flatten := by
  induction l with
  | nil => rfl
  | cons c rest ih =>
    cases rest with
    | nil => simp [joinChunks]
    | cons d rest2 =>
      simp only [joinChunks, List.filter_append, List.map_cons, List.flatten_cons]
      rw [ih, filter_nl2]
      simp

/-- The paragraph split never returns an empty piece list. -/
theorem splitParas_ne_nil (s : Str) : splitParas s ≠ [] := by
  induction s using splitParas.induct with
  | case1 => simp [splitParas]
  | case2 c => simp [splitParas]
  | case3 a b rest h ih => simp [splitParas, h]
  | case4 a b rest h hnil ih =>
    unfold splitParas
    rw [if_neg h, hnil]
    simp
  | case5 a b rest h s0 ss heq ih =>
    unfold splitParas
    rw [if_neg h, heq]
    simp

/-- Splitting on the paragraph delimiter preserves the non-whitespace
characters (the delimiter itself is whitespace). -/
theorem filter_splitParas (t : Str) :
    ((splitParas t).map (List.filter nonWs)).flatten = t.filter nonWs := by
  have hnl : nonWs '\n' = false := by decide
  induction t using splitParas.induct with
  | case1 => simp [splitParas]
  | case2 c => simp [splitParas]
  | case3 a b rest h ih =>
    obtain ⟨ha, hb⟩ := h
    subst ha
    subst hb
    unfold splitParas
    rw [if_pos ⟨rfl, rfl⟩]
    simp only [List.map_cons, List.flatten_cons, List.filter_nil, List.nil_append, ih]
    simp [List.filter_cons, hnl]
  | case4 a b rest h hnil ih => exact absurd hnil (splitParas_ne_nil _)
  | case5 a b rest h s0 ss heq ih =>
    unfold splitParas
    rw [if_neg h, heq]
    rw [heq] at ih
    simp only [List.map_cons, List.flatten_cons] at ih ⊢
    rw [List.filter_cons, List.filter_cons]
    by_cases ha : nonWs a
    · simp only [ha, if_pos]
      rw [List.cons_append, ih]
    · simp only [ha]
      simp only [Bool.false_eq_true, if_false]
      rw [ih]

/-- Across the accumulation loop, completed chunks plus the buffer hold
exactly the non-whitespace characters of the paragraphs processed so far. -/
theorem chunkStep_fold_filter (N : Nat) (l : List Str) :
    ∀ st : List Str × Str,
      ((l.foldl (chunkStep N) st).1.map (List.filter nonWs)).flatten
          ++ ((l.foldl (chunkStep N) st).2.filter nonWs)
        = ((st.1.map (List.filter nonWs)).flatten ++ st.2.filter nonWs)
            ++ (l.map (List.filter nonWs)).flatten := by
  induction l with
  | nil => intro st; simp
  | cons para rest ih =>
    intro st
    simp only [List.foldl_cons, List.map_cons, List.flatten_cons]
    rw [ih]
    unfold chunkStep
    split
    · simp only [List.map_append, List.map_cons, List.map_nil, List.flatten_append,
        List.flatten_cons, List.flatten_nil, List.append_nil]
      rw [filter_trimStr]
      simp [List.append_assoc]
    · simp only [List.filter_append, filter_nl2]
      simp [List.append_assoc]

/-- C5: re-joining the returned chunks with the two-newline delimiter
reproduces the input text's non-whitespace character sequence exactly (all
differences are whitespace, introduced only by boundary trimming and
delimiter normalization), and chunking the empty string yields no chunks. -/
theorem createChunks_content_preserved :
    (∀ (text : Str) (N : Nat),
        (joinChunks (createChunks text N)).filter nonWs = text.filter nonWs)
    ∧ (∀ N : Nat, createChunks (chars "") N = []) := by
  constructor
  · intro text N
    rw [filter_joinChunks]
    have hinv := chunkStep_fold_filter N (splitParas text) (([], []) : List Str × Str)
    simp only [List.map_nil, List.flatten_nil, List.filter_nil, List.nil_append,
      List.append_nil] at hinv
    rw [filter_splitParas] at hinv
    unfold createChunks
    dsimp only
    split
    · next hempty =>
      have hcc : ((splitParas text).foldl (chunkStep N) ([], [])).2.filter nonWs = [] := by
        rw [← filter_trimStr, hempty]
        rfl
      rw [hcc, List.append_nil] at hinv
      exact hinv
    · simp only [List.map_append, List.map_cons, List.map_nil, List.flatten_append,
        List.flatten_cons, List.flatten_nil, List.append_nil]
      rw [filter_trimStr]
      exact hinv
  · intro N
    have htr : trimStr nl2 = [] := by decide
    show createChunks [] N = []
    simp [createChunks, splitParas, chunkStep, htr]

/-- The sort comparator is transitive. -/
theorem scoreLe_trans : ∀ a b c : Scored,
    scoreLe a b = true → scoreLe b c = true → scoreLe a c = true := by
  intro a b c hab hbc
  simp only [scoreLe, decide_eq_true_eq] at hab hbc ⊢
  omega

/-- The sort comparator is total. -/
theorem scoreLe_total : ∀ a b : Scored, (scoreLe a b || scoreLe b a) = true := by
  intro a b
  simp only [scoreLe, Bool.or_eq_true, decide_eq_true_eq]
  exact Nat.le_total b.score a.score

/-- The scored array carries strictly increasing original positions. -/
theorem scoredOf_pairwise_idx (chunks : List Str) (query : Str) :
    (scoredOf chunks query).Pairwise (fun a b => a.idx < b.idx) := by
  unfold scoredOf
  refine List.Pairwise.map _ (fun a b h => h) ?_
  rw [List.pairwise_iff_get]
  intro i j hij
  rw [List.get_enum, List.get_enum]
  simpa using hij

/-- Every scored entry is one of the input chunks, with the score the
relevance-score function gives that chunk. -/
theorem mem_scoredOf {chunks : List Str} {query : Str} {sc : Scored}
    (h : sc ∈ scoredOf chunks query) :
    sc.chunk ∈ chunks ∧ sc.score = relevanceScore query sc.chunk := by
  unfold scoredOf at h
  obtain ⟨p, hp, rfl⟩ := List.mem_map.mp h
  refine ⟨?_, rfl⟩
  have hsnd : p.2 ∈ chunks.enum.map Prod.snd := List.mem_map_of_mem Prod.snd hp
  rwa [List.enum_map_snd] at hsnd

/-- Distinct positions make the scored array duplicate-free. -/
theorem scoredOf_nodup (chunks : List Str) (query : Str) :
    (scoredOf chunks query).Nodup := by
  refine (scoredOf_pairwise_idx chunks query).imp ?_
  intro a b h he
  rw [he] at h
  exact lt_irrefl _ h

/-- In a list with strictly increasing keys, two members in key order form
an ordered pair sublist. -/
theorem pair_sublist_of_pairwise_lt {α : Type} {f : α → Nat} {l : List α}
    (hp : l.Pairwise (fun a b => f a < f b)) {x y : α}
    (hx : x ∈ l) (hy : y ∈ l) (hxy : f x < f y) : [x, y].Sublist l := by
  induction l with
  | nil => cases hx
  | cons h t ih =>
    rw [List.pairwise_cons] at hp
    rcases List.mem_cons.mp hx with rfl | hx'
    · rcases List.mem_cons.mp hy with rfl | hy'
      · exact absurd hxy (lt_irrefl _)
      · exact List.Sublist.cons₂ x (List.singleton_sublist.mpr hy')
    · rcases List.mem_cons.mp hy with rfl | hy'
      · exact absurd (hp.1 x hx') (by omega)
      · exact List.Sublist.cons h (ih hp.2 hx' hy')

/-- In a list with strictly increasing keys, members are determined by
their key. -/
theorem key_inj_of_pairwise_lt {α : Type} {f : α → Nat} {l : List α}
    (hp : l.Pairwise (fun a b => f a < f b)) {x y : α}
    (hx : x ∈ l) (hy : y ∈ l) (hf : f x = f y) : x = y := by
  induction l with
  | nil => cases hx
  | cons h t ih =>
    rw [List.pairwise_cons] at hp
    rcases List.mem_cons.mp hx with rfl | hx'
    · rcases List.mem_cons.mp hy with rfl | hy'
      · rfl
      · exact absurd (hp.1 y hy') (by omega)
    · rcases List.mem_cons.mp hy with rfl | hy'
      · exact absurd (hp.1 x hx') (by omega)
      · exact ih hp.2 hx' hy'

/-- In a duplicate-free list a pair cannot occur as a sublist in both
orders. -/
theorem pair_sublist_antisymm {α : Type} {l : List α} (hnd : l.Nodup) {x y : α}
    (h1 : [x, y].Sublist l) (h2 : [y, x].Sublist l) : x = y := by
  induction l with
  | nil => exact absurd h1 (by simp)
  | cons h t ih =>
    rw [List.nodup_cons] at hnd
    cases h1 with
    | cons _ h1' =>
      cases h2 with
      | cons _ h2' => exact ih hnd.2 h1' h2'
      | cons₂ _ h2' =>
        have hy : y ∈ t := List.Sublist.mem (by simp) h1'
        exact absurd hy hnd.1
    | cons₂ _ h1' =>
      cases h2 with
      | cons _ h2' =>
        have hx : x ∈ t := List.Sublist.mem (by simp) h2'
        exact absurd hx hnd.1
      | cons₂ _ h2' => rfl

/-- The sorted scored array is ordered by non-increasing score. -/
theorem sortedScored_sorted (chunks : List Str) (query : Str) :
    (sortedScored chunks query).Pairwise (fun a b => b.score ≤ a.score) := by
  have h := @List.sorted_mergeSort Scored scoreLe scoreLe_trans scoreLe_total
    (scoredOf chunks query)
  exact h.imp (fun hab => by simpa [scoreLe] using hab)

/-- Stability of the sort: entries with equal score keep their original
relative order (strictly increasing `idx`). -/
theorem sortedScored_stable (chunks : List Str) (query : Str) :
    (sortedScored chunks query).Pairwise
      (fun a b => a.score = b.score → a.idx < b.idx) := by
  rw [List.pairwise_iff_forall_sublist]
  intro a b hab hscore
  have hperm : (sortedScored chunks query).Perm (scoredOf chunks query) :=
    List.mergeSort_perm _ _
  have hnd : (sortedScored chunks query).Nodup :=
    hperm.symm.nodup (scoredOf_nodup chunks query)
  have hne : a ≠ b := List.pairwise_iff_forall_sublist.mp hnd hab
  have ha : a ∈ scoredOf chunks query :=
    hperm.mem_iff.mp (List.Sublist.mem (by simp) hab)
  have hb : b ∈ scoredOf chunks query :=
    hperm.mem_iff.mp (List.Sublist.mem (by simp) hab)
  rcases Nat.lt_trichotomy a.idx b.idx with h | h | h
  · exact h
  · exact absurd (key_inj_of_pairwise_lt (scoredOf_pairwise_idx chunks query) ha hb h) hne
  · have hba : [b, a].Sublist (scoredOf chunks query) :=
      pair_sublist_of_pairwise_lt (scoredOf_pairwise_idx chunks query) hb ha h
    have hpair : ([b, a] : List Scored).Pairwise (fun x y => scoreLe x y = true) := by
      rw [List.pairwise_cons]
      refine ⟨?_, by simp⟩
      intro a' ha'
      rw [List.mem_singleton] at ha'
      subst ha'
      simp [scoreLe, Nat.le_of_eq hscore]
    have hba' : [b, a].Sublist (sortedScored chunks query) :=
      List.sublist_mergeSort scoreLe_trans scoreLe_total hpair hba
    exact absurd (pair_sublist_antisymm hnd hab hba') hne

/-- C3: the retriever returns at most `maxChunks` items, every returned item
is one of the input chunks, the returned items are ordered by non-increasing
relevance score, and — on the sorted scored array the returned prefix is
projected from — entries with equal score keep their original relative order
(stable tie-break by original position). -/
theorem findRelevantChunks_spec :
    ∀ (chunks : List Str) (query : Str) (maxChunks : Nat),
      (findRelevantChunks chunks query maxChunks).length ≤ maxChunks
      ∧ (∀ c ∈ findRelevantChunks chunks query maxChunks, c ∈ chunks)
      ∧ ((findRelevantChunks chunks query maxChunks).map
            (relevanceScore query)).Pairwise (fun x y => y ≤ x)
      ∧ ((sortedScored chunks query).take maxChunks).Pairwise
          (fun a b => b.score ≤ a.score ∧ (a.score = b.score → a.idx < b.idx)) := by
  intro chunks query k
  refine ⟨?_, ?_, ?_, ?_⟩
  · simp only [findRelevantChunks, List.length_map, List.length_take]
    exact min_le_left _ _
  · intro c hc
    simp only [findRelevantChunks, List.mem_map] at hc
    obtain ⟨sc, hsc, rfl⟩ := hc
    have hsort : sc ∈ sortedScored chunks query :=
      List.Sublist.mem hsc (List.take_sublist _ _)
    have hmem : sc ∈ scoredOf chunks query :=
      (List.mergeSort_perm _ _).mem_iff.mp hsort
    exact (mem_scoredOf hmem).1
  · have hs : ((sortedScored chunks query).take k).Pairwise
        (fun a b => b.score ≤ a.score) := (sortedScored_sorted chunks query).take
    have hs' : ((sortedScored chunks query).take k).Pairwise
        (fun a b => relevanceScore query b.chunk ≤ relevanceScore query a.chunk) := by
      refine List.Pairwise.imp_of_mem ?_ hs
      intro a b ha hb hab
      have ha' := (mem_scoredOf ((List.mergeSort_perm _ _).mem_iff.mp
        (List.Sublist.mem ha (List.take_sublist _ _)))).2
      have hb' := (mem_scoredOf ((List.mergeSort_perm _ _).mem_iff.mp
        (List.Sublist.mem hb (List.take_sublist _ _)))).2
      rw [← ha', ← hb']
      exact hab
    simp only [findRelevantChunks, List.map_map]
    exact List.Pairwise.map _ (fun a b h => h) hs'
  · have hcomb : (sortedScored chunks query).Pairwise
        (fun a b => b.score ≤ a.score ∧ (a.score = b.score → a.idx < b.idx)) :=
      (sortedScored_sorted chunks query).and (sortedScored_stable chunks query)
    exact hcomb.take

/-- Witness for C3 at a concrete retrieval. -/
theorem findRelevantChunks_spec_witness :
    chars "a" ∈ ([chars "a"] : List Str) :=
  (findRelevantChunks_spec [chars "a"] (chars "") 1).2.1 (chars "a")
    (by simp [findRelevantChunks, sortedScored, scoredOf, List.mergeSort])

/-- Stripping the first `.json` occurrence is injective back to the filename
when the resulting id contains no dot: the only `.json`-suffixed filename
that strips to a dot-free id is `id ++ ".json"` itself. -/
theorem stripJson_unique :
    ∀ (f : List Char) (id : List Char),
      (chars ".json") <:+ f → stripJson f = id → '.' ∉ id →
      f = id ++ chars ".json" := by
  intro f
  induction f with
  | nil =>
    intro id hsuffix _ _
    have := hsuffix.length_le
    simp [chars] at this
  | cons c rest ih =>
    intro id hsuffix hstrip hdot
    by_cases hcond : c = '.' ∧ (chars "json").isPrefixOf rest
    · obtain ⟨hc, hpre⟩ := hcond
      subst hc
      rw [List.isPrefixOf_iff_prefix] at hpre
      obtain ⟨t, ht⟩ := hpre
      have hf : '.' :: rest = chars ".json" ++ t := by
        rw [← ht]
        rfl
      have hid : id = t := by
        rw [← hstrip]
        unfold stripJson
        rw [if_pos ⟨rfl, List.isPrefixOf_iff_prefix.mpr ⟨t, ht⟩⟩]
        rw [← ht]
        rfl
      subst hid
      rw [hf] at hsuffix ⊢
      -- show ".json" ++ id = id ++ ".json" given ".json" <:+ ".json" ++ id
      -- and '.' ∉ id; only id = [] survives a dot-count comparison.
      rcases List.eq_nil_or_concat' id with rfl | hne
      · rfl
      · exfalso
        obtain ⟨pre, hpre2⟩ := hsuffix
        have hlen : pre.length = id.length := by
          have := congrArg List.length hpre2
          simp [chars] at this
          omega
        have hcount : List.count '.' pre = 0 := by
          have := congrArg (List.count '.') hpre2
          rw [List.count_append, List.count_append] at this
          have hidcount : List.count '.' id = 0 := List.count_eq_zero.mpr hdot
          have hjson : List.count '.' (chars ".json") = 1 := by decide
          omega
        cases pre with
        | nil =>
          obtain ⟨l, x, rfl⟩ := hne
          simp [chars] at hlen
        | cons p0 pre' =>
          have hp0 : p0 = '.' := by
            have := congrArg (fun l => l.head?) hpre2
            simpa [chars] using this
          rw [hp0] at hcount
          simp [List.count_cons] at hcount
    · have hid : id = c :: stripJson rest := by
        rw [← hstrip]
        show (if c = '.' ∧ (chars "json").isPrefixOf rest then rest.drop 4
          else c :: stripJson rest) = c :: stripJson rest
        rw [if_neg hcond]
      rcases List.suffix_cons_iff.mp hsuffix with heq | hsuf
      · exfalso
        have hc : c = '.' := by
          have := congrArg (fun l => l.head?) heq
          simpa [chars] using this.symm
        rw [hid] at hdot
        exact hdot (by rw [hc]; simp)
      · have hcd : c ≠ '.' := by
          intro hc
          rw [hid] at hdot
          exact hdot (by rw [hc]; simp)
        have hdot' : '.' ∉ stripJson rest := by
          rw [hid] at hdot
          intro hmem
          exact hdot (List.mem_cons_of_mem c hmem)
        have := ih (stripJson rest) hsuf rfl hdot'
        rw [hid, List.cons_append]
        exact congrArg (List.cons c) this

/-- C9 counterexample: with stray files `.jsona.json` and `a.json.json` in
the sessions directory, `deleteSession("a.json")` succeeds (unlinking
`a.json.json`) yet the refreshed listing still shows `a.json`, because the
listing strips only the FIRST `.json` occurrence of each filename and
`.jsona.json` strips to `a.json`. -/
def c9PathState : ManagerState :=
  ⟨none, [], [(".jsona.json", .invalid), ("a.json.json", .invalid)], true⟩

/-- The deleted id reappears in the listing on the pathological state. -/
theorem deleteSession_listing_counterexample :
    (deleteSession c9PathState "a.json").2 = true
    ∧ "a.json" ∈ (deleteSession c9PathState "a.json").1.sessions := by
  constructor
  · rfl
  · have h1 : (deleteSession c9PathState "a.json").1.sessions
        = (["a.json"] : List String).mergeSort (fun a b => lexLe b.data a.data) := rfl
    rw [h1, List.mem_mergeSort]
    simp

/-- C9 (amended): the three read/delete operations are total (no exception
reaches the caller): `loadSession` returns `null` when the backing file is
missing or its text is not valid JSON, leaving the state untouched;
`loadSessionsList` leaves an empty listing when the directory cannot be
read; `deleteSession` returns `false` when the backing file is missing and
`true` on success, after which the deleted id no longer appears in the
listing PROVIDED the id contains no `.` character (true of every generated
id; the listing strips only the first `.json` occurrence of each filename,
so an id containing `.json` can still be produced by another file). -/
theorem sessionStore_soft_failures :
    ∀ (st : ManagerState) (id : String),
      (st.files.lookup (sessionFile id) = none → loadSession st id = (st, none))
      ∧ (st.files.lookup (sessionFile id) = some .invalid →
          loadSession st id = (st, none))
      ∧ (st.dirReadable = false → (loadSessionsList st).sessions = [])
      ∧ (st.files.lookup (sessionFile id) = none → deleteSession st id = (st, false))
      ∧ ((st.files.lookup (sessionFile id)).isSome = true →
          (deleteSession st id).2 = true
          ∧ ('.' ∉ id.data → id ∉ (deleteSession st id).1.sessions)) := by
  intro st id
  refine ⟨?_, ?_, ?_, ?_, ?_⟩
  · intro h
    unfold loadSession
    rw [h]
  · intro h
    unfold loadSession
    rw [h]
  · intro h
    unfold loadSessionsList
    rw [if_neg (by rw [h]; exact Bool.false_ne_true)]
  · intro h
    unfold deleteSession
    rw [if_neg (by rw [h]; simp)]
  · intro h
    unfold deleteSession
    rw [if_pos h]
    refine ⟨rfl, ?_⟩
    intro hdot hmem
    dsimp only at hmem
    unfold loadSessionsList at hmem
    by_cases hdir : ({ st with files := unlinkFile st.files (sessionFile id) } :
        ManagerState).dirReadable
    · rw [if_pos hdir] at hmem
      dsimp only at hmem
      rw [List.mem_mergeSort] at hmem
      obtain ⟨f, hf, hfid⟩ := List.mem_map.mp hmem
      have hf' := List.mem_filter.mp hf
      have hends : (chars ".json") <:+ f.data := by
        have := hf'.2
        unfold endsWithJson at this
        rwa [List.isSuffixOf_iff_suffix] at this
      have hstrip : stripJson f.data = id.data := by
        have := congrArg String.data hfid
        simpa using this
      have hfeq : f = sessionFile id := by
        apply String.ext
        rw [stripJson_unique f.data id.data hends hstrip hdot]
        unfold sessionFile
        rw [String.data_append]
        rfl
      obtain ⟨kv, hkv, hkvf⟩ := List.mem_map.mp hf'.1
      have hkv' := List.mem_filter.mp hkv
      have : kv.1 ≠ sessionFile id := by
        have := hkv'.2
        simpa using this
      rw [hkvf] at this
      exact this hfeq
    · rw [if_neg hdir] at hmem
      simp at hmem

/-- Concrete states for the C9 witness. -/
def c9GoodState : ManagerState :=
  ⟨none, [], [("abc.json", .invalid), ("zzz.json", .invalid)], true⟩

/-- A state whose directory cannot be read. -/
def c9BadDirState : ManagerState := ⟨none, [], [], false⟩

/-- Witness for C9's amended statement at concrete states. -/
theorem sessionStore_soft_failures_witness :
    loadSession c9GoodState "missing" = (c9GoodState, none)
    ∧ loadSession c9GoodState "zzz" = (c9GoodState, none)
    ∧ (loadSessionsList c9BadDirState).sessions = []
    ∧ deleteSession c9GoodState "missing" = (c9GoodState, false)
    ∧ (deleteSession c9GoodState "abc").2 = true
    ∧ "abc" ∉ (deleteSession c9GoodState "abc").1.sessions :=
  ⟨(sessionStore_soft_failures c9GoodState "missing").1 rfl,
   (sessionStore_soft_failures c9GoodState "zzz").2.1 rfl,
   (sessionStore_soft_failures c9BadDirState "x").2.2.1 rfl,
   (sessionStore_soft_failures c9GoodState "missing").2.2.2.1 rfl,
   ((sessionStore_soft_failures c9GoodState "abc").2.2.2.2 rfl).1,
   ((sessionStore_soft_failures c9GoodState "abc").2.2.2.2 rfl).2 (by decide)⟩
